import Mathlib

/-!
Verification of src/bin/format_tutorial_for_paper.py.

The script is embedded shallowly: Python strings become Lean `String`
(with helper functions over `List Char`), Python dictionaries become
association lists, file-system effects become explicit state values, and
fallible code returns `Option`.  Every definition mirrors the source; the
line numbers of the embedded code are given in the doc comments.
-/

/-! ### Generic string helpers (Python string primitives) -/

/-- Substring test over character lists: Python `needle in haystack`. -/
def isSubstrCL (needle : List Char) : List Char → Bool
  | [] => needle.isEmpty
  | c :: rest => needle.isPrefixOf (c :: rest) || isSubstrCL needle rest

/-- Python `sub in s` (substring containment). -/
def strContains (s sub : String) : Bool :=
  isSubstrCL sub.data s.data

/-- Python `s.startswith(p)`. -/
def pyStartsWith (s p : String) : Bool :=
  p.data.isPrefixOf s.data

/-- Fuel-indexed worker for `replaceAllCL`; the fuel is only there to make
the recursion structural (hence kernel-computable), and is always called
with fuel at least the length of the scanned list. -/
def replaceGo (pat rep : List Char) : Nat → List Char → List Char
  | _, [] => []
  | 0, c :: rest => c :: rest
  | fuel + 1, c :: rest =>
    if pat ≠ [] ∧ pat.isPrefixOf (c :: rest) then
      rep ++ replaceGo pat rep fuel ((c :: rest).drop pat.length)
    else
      c :: replaceGo pat rep fuel rest

/-- Python `s.replace(pat, rep)`: replace all non-overlapping occurrences,
scanning left to right.  (The embedding is never applied with an empty
pattern; for an empty pattern it returns the input unchanged.) -/
def replaceAllCL (pat rep s : List Char) : List Char :=
  replaceGo pat rep s.length s

/-- Python `s.replace(pat, rep)` at `String` level. -/
def strReplace (s pat rep : String) : String :=
  ⟨replaceAllCL pat.data rep.data s.data⟩

/-- Python `s[:-1]`. -/
def strDropLast (s : String) : String :=
  ⟨s.data.dropLast⟩

/-- Python `s[2:]`. -/
def strDropTwo (s : String) : String :=
  ⟨s.data.drop 2⟩

/-! ### The embedded script: small pure helpers -/

/-- Contributor directory (CONTRIBUTORS.yaml, already parsed): a mapping
from contributor identifier to a record of fields; only the `name` field
is ever consulted. -/
abbrev Contributors := List (String × List (String × String))

/-- Embeds `get_author_name` (lines 29-38): return the `name` field of the
contributor record when the identifier is present and carries one,
otherwise return the identifier itself. -/
def get_author_name (author_id : String) (contributors : Contributors) : String :=
  match contributors.lookup author_id with
  | some info =>
    match info.lookup "name" with
    | some n => n
    | none => author_id
  | none => author_id

/-- Embeds the author-accumulation loop of `extract_metadata`
(lines 93-94): `for c in yaml_metadata[contributors]: append(...)`. -/
def authorsOf (ids : List String) (contributors : Contributors) : List String :=
  ids.foldl (fun acc c => acc ++ [get_author_name c contributors]) []

/-- Embeds `get_time` (lines 41-53).  Python falls off the end of the
if-chain and returns `None` when none of the four unit letters occurs;
this is modelled by `none`. -/
def get_time (time : String) : Option String :=
  if strContains time "h" then some (strReplace time "h" " hours")
  else if strContains time "H" then some (strReplace time "H" " hours")
  else if strContains time "m" then some (strReplace time "m" " minutes")
  else if strContains time "M" then some (strReplace time "M" " minutes")
  else none

/-! ### Reference aggregation (`add_references`, lines 216-258) -/

/-- First fixed bibliography entry (lines 229-242), with the escape
sequences of the Python string literal resolved: the source writes
backslash-quote (a plain quote at runtime) and backslash-v (a vertical
tab, U+000B, at runtime). -/
def refFixedGalaxy : String :=
  "@article\x7bafgan2018galaxy,\n  title=\x7bThe Galaxy platform for accessible, reproducible and collaborative biomedical analyses: 2018 update\x7d,\n  author=\x7bAfgan, Enis and Baker, Dannon and Batut, B\x7b\x27e\x7dr\x7b\x27e\x7dnice and Van Den Beek, Marius and Bouvier, Dave and \x7b\x0b\x7bC\x7d\x7dech, Martin and Chilton, John and Clements, Dave and Coraor, Nate and Gr\x7b\x22u\x7dning, Bj\x7b\x22o\x7drn A and others\x7d,\n  journal=\x7bNucleic acids research\x7d,\n  volume=\x7b46\x7d,\n  number=\x7bW1\x7d,\n  pages=\x7bW537--W544\x7d,\n  year=\x7b2018\x7d,\n  publisher=\x7bOxford University Press\x7d\n\x7d\n\n"

/-- Second fixed bibliography entry (lines 243-255), escapes resolved as
in `refFixedGalaxy`. -/
def refFixedGTN : String :=
  "@article\x7bbatut2018community,\n  title=\x7bCommunity-driven data analysis training for biology\x7d,\n  author=\x7bBatut, B\x7b\x27e\x7dr\x7b\x27e\x7dnice and Hiltemann, Saskia and Bagnacani, Andrea and Baker, Dannon and Bhardwaj, Vivek and Blank, Clemens and Bretaudeau, Anthony and Brillet-Gu\x7b\x27e\x7dguen, Loraine and \x7b\x0b\x7bC\x7d\x7dech, Martin and Chilton, John and others\x7d,\n  journal=\x7bCell systems\x7d,\n  volume=\x7b6\x7d,\n  number=\x7b6\x7d,\n  pages=\x7b752--758\x7d,\n  year=\x7b2018\x7d,\n  publisher=\x7bElsevier\x7d\n\x7d\n"

/-- Embeds `add_references` (lines 216-258) as a pure function: the
argument is the content of `tutorial.bib` when that file exists
(`none` when it does not); the result is the full content written to
`references.bib`. -/
def add_references (tutoRef : Option String) : String :=
  (match tutoRef with
   | some s => s
   | none => "") ++ refFixedGalaxy ++ refFixedGTN

/-- File-system state touched by the reference aggregation: the input
bibliography and the output bibliography. -/
structure RefState where
  tutorialBib : Option String
  referencesBib : Option String
deriving DecidableEq

/-- One run of `add_references` over the file-system state: reads
`tutorialBib`, overwrites `referencesBib` with the produced content. -/
def runAddReferences (st : RefState) : RefState :=
  { st with referencesBib := some (add_references st.tutorialBib) }

/-! ### The body filter (`format_tuto_content` loop, lines 107-142) -/

/-- The five-icon box-opening test of line 115: `re.search` of an
alternation of five literal tags, equivalent to containment of one of the
five literal strings. -/
def icon5 (l : String) : Bool :=
  strContains l "\x7b% icon question %\x7d" ||
  strContains l "\x7b% icon details %\x7d" ||
  strContains l "\x7b% icon comment %\x7d" ||
  strContains l "\x7b% icon tip %\x7d" ||
  strContains l "\x7b% icon warning %\x7d"

/-- The box-closing test of line 122: `re.search` of an optional-space dot
annotation for six names, equivalent to containment of one of twelve
literal strings. -/
def closing6 (l : String) : Bool :=
  strContains l "\x7b:.question\x7d" || strContains l "\x7b: .question\x7d" ||
  strContains l "\x7b:.details\x7d" || strContains l "\x7b: .details\x7d" ||
  strContains l "\x7b:.comment\x7d" || strContains l "\x7b: .comment\x7d" ||
  strContains l "\x7b:.tip\x7d" || strContains l "\x7b: .tip\x7d" ||
  strContains l "\x7b:.warning\x7d" || strContains l "\x7b: .warning\x7d" ||
  strContains l "\x7b:.agenda\x7d" || strContains l "\x7b: .agenda\x7d"

/-- The no-table-of-contents test of line 136, equivalent to containment
of one of the two literal annotation forms. -/
def noTocTest (l : String) : Bool :=
  strContains l "\x7b:.no_toc\x7d" || strContains l "\x7b: .no_toc\x7d"

/-- One iteration of the line-filter loop (lines 110-142): given the
current suppression flag (`do_not_add_next_lines`) and a line, return the
updated flag and the lines appended to `l_content` (one or none). -/
def filterStep (flag : Bool) (l : String) : Bool × List String :=
  if strContains l "\x7b% include" then (flag, [])
  else if icon5 l then (true, [])
  else if strContains l "### Agenda" then (true, [])
  else if flag then
    (if closing6 l then (false, []) else (true, []))
  else if strContains l "\x7b% icon hands_on %\x7d" then
    (flag, [strDropLast (strReplace l "> ### \x7b% icon hands_on %\x7d " "***") ++ "***\n"])
  else if strContains l "\x7b: .hands_on\x7d" then (flag, [])
  else if pyStartsWith l "> " then (flag, [strDropTwo l])
  else if pyStartsWith l ">" then (flag, [])
  else if noTocTest l then (flag, [])
  else if strContains l "# Introduction" then (flag, ["# Description of the data\n"])
  else (flag, [l])

/-- The whole line-filter loop: fold `filterStep` over the body lines,
starting from a given suppression flag (`False` at line 108), collecting
`l_content`. -/
def filterLines : Bool → List String → List String
  | _, [] => []
  | flag, l :: rest =>
    (filterStep flag l).2 ++ filterLines (filterStep flag l).1 rest

/-- A line at which the suppression branch of line 121 both fires and
clears the flag: it matches the closing annotation and matches none of
the three earlier rules (include tag, five-icon tag, Agenda heading). -/
def clearsSuppress (l : String) : Bool :=
  closing6 l && !(strContains l "\x7b% include") && !(icon5 l) &&
    !(strContains l "### Agenda")

/-! ### Metadata extraction (`create_abstract` / `extract_metadata`) -/

/-- Parsed front-matter of the tutorial (the fields the script reads);
the YAML parsing itself is the external input boundary. -/
structure TutoMeta where
  title : String
  contributors : List String
  questions : List String
  objectives : List String
  time_estimation : String
  zenodo_link : String

/-- Python string interpolation of an optional value: `None` prints as
the literal string "None". -/
def pyStrOfOpt : Option String → String
  | some s => s
  | none => "None"

/-- The objective comprehension of line 69: lowercase the first character
of each entry (Python raises IndexError on an empty entry, modelled by
`none`; `Char.toLower` matches Python for the ASCII inputs used). -/
def lowerFirstAll : List String → Option (List String)
  | [] => some []
  | s :: rest =>
    match s.data with
    | [] => none
    | c :: cs =>
      match lowerFirstAll rest with
      | some r => some (String.mk (c.toLower :: cs) :: r)
      | none => none

/-- Embeds `create_abstract` (lines 56-75): the fixed-template abstract
paragraph interpolating question count, questions joined by single
spaces, first-letter-lowercased objectives joined by ", ", and the
rewritten time estimation. -/
def create_abstract (ym : TutoMeta) : Option String :=
  match lowerFirstAll ym.objectives with
  | none => none
  | some objs =>
    some
      ("<why/aim (1st paragraph of the introduction)>. This tutorial is developed for the data analysis platform Galaxy. The Galaxy\x27s concept makes high-throughput sequencing data analysis a structured, reproducible and transparent process. "
        ++ "In this tutorial we focus on " ++ toString ym.questions.length ++
          " questions: " ++ String.intercalate " " ym.questions ++ " "
        ++ "After finishing this tutorial you will be able to " ++
          String.intercalate ", " objs ++ "."
        ++ "Requirements for this tutorial is a minimal Galaxy experience and a Galaxy account on the Galaxy Europe server. "
        ++ "The estimated duration of this tutorial is around " ++
          pyStrOfOpt (get_time ym.time_estimation) ++ ".")

/-- Values stored in the pandoc metadata mapping: scalars and the author
list. -/
inductive YamlValue where
  | str : String → YamlValue
  | list : List String → YamlValue
deriving DecidableEq

/-- Embeds `extract_metadata` (lines 78-97) as the association list the
Python dict holds, in the dict insertion order of lines 84-89:
title, author, abstract, bibliography. -/
def extract_metadata (ym : TutoMeta) (contributors : Contributors) :
    Option (List (String × YamlValue)) :=
  match create_abstract ym with
  | none => none
  | some a =>
    some [("title", YamlValue.str ym.title),
          ("author", YamlValue.list (authorsOf ym.contributors contributors)),
          ("abstract", YamlValue.str a),
          ("bibliography", YamlValue.str "references.bib")]

/-! ### Serialization of the metadata mapping (`yaml.dump`, line 211) -/

/-- Lexicographic comparison of character lists (by code point), the
order Python uses to compare the distinct string keys. -/
def charListLe : List Char → List Char → Bool
  | [], _ => true
  | _ :: _, [] => false
  | a :: as, b :: bs => if a = b then charListLe as bs else decide (a < b)

/-- Key comparison for the mapping serialization. -/
def strLe (a b : String) : Bool :=
  charListLe a.data b.data

/-- Insert an entry into a key-sorted association list. -/
def insertByKey (p : String × YamlValue) :
    List (String × YamlValue) → List (String × YamlValue)
  | [] => [p]
  | q :: rest =>
    if strLe p.1 q.1 then p :: q :: rest else q :: insertByKey p rest

/-- Sort an association list by key (insertion sort; the keys here are
always distinct, so stability is irrelevant). -/
def sortByKey : List (String × YamlValue) → List (String × YamlValue)
  | [] => []
  | p :: rest => insertByKey p (sortByKey rest)

/-- One serialized mapping entry (simplified block formatting; the claims
concern only key order and the block structure of the output file). -/
def yamlValText : YamlValue → String
  | YamlValue.str s => s ++ "\n"
  | YamlValue.list xs => "\n" ++ String.join (xs.map (fun x => "- " ++ x ++ "\n"))

/-- Models `yaml.dump` of the external PyYAML library (line 211): PyYAML
serializes a mapping with its keys sorted alphabetically (its dumper sorts
the item list; in later versions this is the `sort_keys=True` default),
not in dict insertion order.  Scalar formatting is simplified; the claims
concern only the key order and the surrounding block structure. -/
def dumpYaml (m : List (String × YamlValue)) : String :=
  String.join ((sortByKey m).map (fun p => p.1 ++ ": " ++ yamlValText p.2))

/-- The key order of the re-serialized front-matter mapping. -/
def dumpedKeyOrder (m : List (String × YamlValue)) : List String :=
  (sortByKey m).map Prod.fst

/-- Concrete front-matter used by the end-to-end scenarios. -/
def ymScenario : TutoMeta :=
  { title := "T", contributors := ["bob"], questions := ["How does X work?"],
    objectives := ["Explain X."], time_estimation := "1h", zenodo_link := "Z" }

/-- Concrete contributor directory used by the end-to-end scenarios. -/
def contributorsScenario : Contributors :=
  [("bob", [("name", "Bob B")])]

/-! ### The two `re.sub` passes (lines 175 and 178) -/

/-- Named characters (kept symbolic to ease the proofs below). -/
def spaceC : Char := Char.ofNat 32

/-- The opening brace character. -/
def braceL : Char := Char.ofNat 123

/-- The closing brace character. -/
def braceR : Char := Char.ofNat 125

/-- The opening square bracket character. -/
def lbrackC : Char := Char.ofNat 91

/-- The closing square bracket character. -/
def rbrackC : Char := Char.ofNat 93

/-- The at-sign character. -/
def atC : Char := Char.ofNat 64

/-- The percent character. -/
def percentC : Char := Char.ofNat 37

/-- Character class of the icon-name pattern of line 175: lowercase
letters, hyphen, underscore. -/
def keyCharIcon (c : Char) : Bool :=
  (decide (97 ≤ c.toNat) && decide (c.toNat ≤ 122)) ||
    c == Char.ofNat 45 || c == Char.ofNat 95

/-- Character class of the citation-key pattern of line 178: lowercase
letters, digits, hyphen, underscore. -/
def keyCharCite (c : Char) : Bool :=
  keyCharIcon c || (decide (48 ≤ c.toNat) && decide (c.toNat ≤ 57))

/-- The optional trailing-space consumption of the icon pattern
(`[ ]?`, greedy). -/
def eatSpace (eat : Bool) (l : List Char) : List Char :=
  if eat then
    match l with
    | [] => []
    | c :: t => if c == spaceC then t else c :: t
  else l

/-- Match the pattern `pre`, one-or-more `kc` characters, `post`
(optionally a trailing space) at the head of `s`, returning the captured
key and the rest of the string.  Because the key class excludes the first
character of `post` (a space), the greedy one-or-more run of the regex
engine never backtracks, so taking the maximal run is exact. -/
def matchTagAt (pre post : List Char) (kc : Char → Bool) (eat : Bool)
    (s : List Char) : Option (List Char × List Char) :=
  if pre.isPrefixOf s then
    if ((s.drop pre.length).takeWhile kc).isEmpty then none
    else
      if post.isPrefixOf
          ((s.drop pre.length).drop ((s.drop pre.length).takeWhile kc).length) then
        some ((s.drop pre.length).takeWhile kc,
          eatSpace eat
            (((s.drop pre.length).drop
                ((s.drop pre.length).takeWhile kc).length).drop post.length))
      else none
  else none

/-- Fuel-indexed worker for `subTagCL` (fuel makes the recursion
structural; it always covers the length of the scanned list).  This is
`re.sub` for the two patterns used by the script: scan left to right,
replace the leftmost match, continue after the replaced region. -/
def subTagGo (pre post : List Char) (kc : Char → Bool) (eat : Bool)
    (mk : List Char → List Char) : Nat → List Char → List Char
  | _, [] => []
  | 0, c :: rest => c :: rest
  | fuel + 1, c :: rest =>
    match matchTagAt pre post kc eat (c :: rest) with
    | some p => mk p.1 ++ subTagGo pre post kc eat mk fuel p.2
    | none => c :: subTagGo pre post kc eat mk fuel rest

/-- Embedding of `re.sub` for the pattern `pre (kc)+ post` with replacement `mk key`. -/
def subTagCL (pre post : List Char) (kc : Char → Bool) (eat : Bool)
    (mk : List Char → List Char) (s : List Char) : List Char :=
  subTagGo pre post kc eat mk s.length s

/-- The literal prefix of the icon pattern of line 175. -/
def iconPre : List Char :=
  braceL :: percentC :: spaceC :: 'i' :: 'c' :: 'o' :: 'n' :: spaceC :: []

/-- The literal prefix of the citation pattern of line 178. -/
def citePre : List Char :=
  braceL :: percentC :: spaceC :: 'c' :: 'i' :: 't' :: 'e' :: spaceC :: []

/-- The literal suffix shared by both patterns. -/
def tagPost : List Char := spaceC :: percentC :: braceR :: []

/-- The replacement of line 178: bracketed citation key, key verbatim. -/
def citeRep (k : List Char) : List Char :=
  lbrackC :: atC :: (k ++ [rbrackC])

/-- The icon-erasing substitution of line 175 (replacement is empty, one
optional trailing space also removed). -/
def iconSubStr (s : String) : String :=
  ⟨subTagCL iconPre tagPost keyCharIcon true (fun _ => []) s.data⟩

/-- The citation substitution of line 178 over character lists. -/
def citeSubCL (s : List Char) : List Char :=
  subTagCL citePre tagPost keyCharCite false citeRep s

/-- The citation substitution of line 178 at `String` level. -/
def citeSubStr (s : String) : String :=
  ⟨citeSubCL s.data⟩

/-! ### Content assembly (`format_tuto_content`, lines 144-180) -/

/-- The fixed introduction block of lines 145-159, transcribed with the
adjacent Python string literals concatenated (including the stray
"os." left in the source). -/
def introText : String :=
  "\n# Introduction\n\n<why/aim (1st paragraph of the introduction)>.\n\nThis tutorial provides a detailed workflow for <outputs> from <inputs> using Galaxy.Galaxy [@afgan2018galaxy] is a data analysis platform that provides access to hundreds of tools used in a wide variety of analysis scenarios. os. It features a web-based user interface while automatically and transparently managing underlying computation details. The Galaxy\x27s concept makes high-throughput sequencing data analysis a structured, reproducible and transparent process.\n\nThe tutorial starts from <inputs>. It runs first a <overview of each step (1 sentence) of the workflow with tool names in bold and citation.>\n\nThe entire analysis described this article can be conducted efficiently on any Galaxy server which has the needed tools. However, to be sure, the authors recommend to use the Galaxy Europe server (https://usegalaxy.eu/).\n\nThe tutorial presented in this article has been developed by the Galaxy Training Network [@batut2018community] and is available online at https://training.galaxyproject.org/"

/-- The Zenodo placeholder replaced at lines 170-172. -/
def zenodoTag : String := "\x7b\x7b page.zenodo_link \x7d\x7d"

/-- The fixed references heading of line 164. -/
def refHeading : String := "\n# References\n\n"

/-- Embeds `format_tuto_content` (lines 100-180): filter the body lines,
prepend the introduction block (with the input path, every occurrence of
"md" replaced by "html", interpolated at line 160), append the references
heading, then apply the three global substitutions in source order:
Zenodo placeholder, icon erasure, citation rewrite. -/
def format_tuto_content (content : List String) (zenodo_link : String)
    (tuto_fp : String) : String :=
  citeSubStr (iconSubStr (strReplace
    (introText ++ strReplace tuto_fp "md" "html" ++ ".\n\n" ++
      String.join (filterLines false content) ++ refHeading)
    zenodoTag zenodo_link))

/-- Embeds the output assembly of `format_tutorial` (lines 209-213),
taking the already-parsed front-matter and body (the YAML parse of the
input file is the external boundary): front-matter delimiter, dumped
metadata, delimiter, transformed body. -/
def format_tutorial (ym : TutoMeta) (contributors : Contributors)
    (body : List String) (tuto_fp : String) : Option String :=
  match extract_metadata ym contributors with
  | none => none
  | some m =>
    some ("---\n" ++ dumpYaml m ++ "---\n" ++
      format_tuto_content body ym.zenodo_link tuto_fp)

/-! ### Front-matter slicing (`format_tutorial`, lines 194-207) -/

/-- The loop of lines 198-200: index, within `full_content[1:]`, of the
first line starting with three hyphens.  (Python leaves the last index in
`i` when no line matches; `findIdx` then returns the length instead — the
claims only concern inputs where the delimiter exists.) -/
def closeDelimIdx (lines : List String) : Nat :=
  (lines.drop 1).findIdx (fun l => pyStartsWith l "---")

/-- The line slice handed to the YAML parse at line 201:
`full_content[1:i]`. -/
def yamlSliceOf (lines : List String) : List String :=
  (lines.drop 1).take (closeDelimIdx lines - 1)

/-- The body slice handed to the content filter at line 205:
`full_content[i+2:]`. -/
def bodySliceOf (lines : List String) : List String :=
  lines.drop (closeDelimIdx lines + 2)

/-! ### Claims C3, C4, C8 -/

/-- The fuel of `replaceGo` is irrelevant as long as it covers the length
of the scanned list. -/
theorem replaceGo_congr (pat rep : List Char) :
    ∀ (f₁ f₂ : Nat) (s : List Char), s.length ≤ f₁ → s.length ≤ f₂ →
      replaceGo pat rep f₁ s = replaceGo pat rep f₂ s := by
  intro f₁
  induction f₁ with
  | zero =>
    intro f₂ s hs₁ _
    have : s = [] := List.length_eq_zero.mp (Nat.le_zero.mp hs₁)
    subst this
    cases f₂ <;> rfl
  | succ f ih =>
    intro f₂ s hs₁ hs₂
    cases s with
    | nil => cases f₂ <;> rfl
    | cons c rest =>
      cases f₂ with
      | zero => simp at hs₂
      | succ f₂' =>
        simp only [replaceGo]
        by_cases h : pat ≠ [] ∧ pat.isPrefixOf (c :: rest)
        · simp only [if_pos h]
          have hp : 0 < pat.length := List.length_pos.mpr h.1
          have hd : ((c :: rest).drop pat.length).length ≤ f := by
            simp only [List.length_drop, List.length_cons]
            simp only [List.length_cons] at hs₁
            omega
          have hd₂ : ((c :: rest).drop pat.length).length ≤ f₂' := by
            simp only [List.length_drop, List.length_cons]
            simp only [List.length_cons] at hs₂
            omega
          rw [ih f₂' _ hd hd₂]
        · simp only [if_neg h]
          have h₁ : rest.length ≤ f := by
            simp only [List.length_cons] at hs₁; omega
          have h₂ : rest.length ≤ f₂' := by
            simp only [List.length_cons] at hs₂; omega
          rw [ih f₂' rest h₁ h₂]

/-- Unfolding equation for `replaceAllCL` on a nonempty list. -/
theorem replaceAllCL_cons (pat rep : List Char) (c : Char) (rest : List Char) :
    replaceAllCL pat rep (c :: rest) =
      if pat ≠ [] ∧ pat.isPrefixOf (c :: rest) then
        rep ++ replaceAllCL pat rep ((c :: rest).drop pat.length)
      else
        c :: replaceAllCL pat rep rest := by
  unfold replaceAllCL
  simp only [List.length_cons, replaceGo]
  by_cases h : pat ≠ [] ∧ pat.isPrefixOf (c :: rest)
  · simp only [if_pos h]
    have hp : 0 < pat.length := List.length_pos.mpr h.1
    have hd : ((c :: rest).drop pat.length).length ≤ rest.length := by
      simp only [List.length_drop, List.length_cons]
      omega
    rw [replaceGo_congr pat rep rest.length ((c :: rest).drop pat.length).length _ hd le_rfl]
  · simp only [if_neg h]

/-- Claim C3: the time-string rewrite checks the unit letters in the fixed
order h, H, m, M with first match winning, replacing the matched letter by
the expanded word: "1h" yields "1 hours", "30m" yields "30 minutes", any
input containing an h resolves via the h branch (so h wins over m), and an
input containing none of the four letters yields nothing usable (`none`). -/
theorem claim3_time :
    get_time "1h" = some "1 hours" ∧
    get_time "30m" = some "30 minutes" ∧
    (∀ t : String, strContains t "h" = true →
      get_time t = some (strReplace t "h" " hours")) ∧
    (∀ t : String, strContains t "h" = false → strContains t "H" = false →
      strContains t "m" = false → strContains t "M" = false →
      get_time t = none) := by
  refine ⟨by decide, by decide, ?_, ?_⟩
  · intro t ht
    simp [get_time, ht]
  · intro t h1 h2 h3 h4
    simp [get_time, h1, h2, h3, h4]

/-- Witness for claim C3: the h branch wins on the mixed token "2h30m",
and the unit-free token "45" yields nothing. -/
theorem claim3_time_wit :
    get_time "2h30m" = some (strReplace "2h30m" "h" " hours") ∧
    get_time "45" = none :=
  ⟨claim3_time.2.2.1 "2h30m" (by decide),
   claim3_time.2.2.2 "45" (by decide) (by decide) (by decide) (by decide)⟩

/-- The author loop accumulates by appending, which is exactly `map`. -/
theorem authorsOf_eq_map (ids : List String) (contributors : Contributors) :
    authorsOf ids contributors = ids.map (fun c => get_author_name c contributors) := by
  have h : ∀ (l : List String) (acc : List String),
      l.foldl (fun a c => a ++ [get_author_name c contributors]) acc =
        acc ++ l.map (fun c => get_author_name c contributors) := by
    intro l
    induction l with
    | nil => intro acc; simp
    | cons x xs ih =>
      intro acc
      simp [List.foldl, ih, List.append_assoc]
  simpa using h ids []

/-- Claim C4: contributor name resolution is total and never fails — an
identifier absent from the directory, or present without a name field,
resolves to the identifier itself; one present with a name field resolves
to that name; and the author list is the elementwise resolution of the
`contributors` sequence, preserving source order and duplicates. -/
theorem claim4_author :
    (∀ (i : String) (d : Contributors), d.lookup i = none →
      get_author_name i d = i) ∧
    (∀ (i : String) (d : Contributors) (info : List (String × String)),
      d.lookup i = some info → info.lookup "name" = none →
      get_author_name i d = i) ∧
    (∀ (i : String) (d : Contributors) (info : List (String × String)) (n : String),
      d.lookup i = some info → info.lookup "name" = some n →
      get_author_name i d = n) ∧
    (∀ (ids : List String) (d : Contributors),
      authorsOf ids d = ids.map (fun c => get_author_name c d)) := by
  refine ⟨?_, ?_, ?_, ?_⟩
  · intro i d h
    simp [get_author_name, h]
  · intro i d info h1 h2
    simp [get_author_name, h1, h2]
  · intro i d info n h1 h2
    simp [get_author_name, h1, h2]
  · intro ids d
    exact authorsOf_eq_map ids d

/-- Witness for claim C4: an absent identifier resolves to itself, a
record without a name resolves to the identifier, a record with a name
resolves to the name, and a duplicated contributor list maps through. -/
theorem claim4_author_wit :
    get_author_name "ghost" [("bob", [("name", "Bob B")])] = "ghost" ∧
    get_author_name "ann" [("ann", [("email", "x")])] = "ann" ∧
    get_author_name "bob" [("bob", [("name", "Bob B")])] = "Bob B" ∧
    authorsOf ["bob", "ghost", "bob"] [("bob", [("name", "Bob B")])] =
      ["bob", "ghost", "bob"].map
        (fun c => get_author_name c [("bob", [("name", "Bob B")])]) :=
  ⟨claim4_author.1 "ghost" [("bob", [("name", "Bob B")])] (by decide),
   claim4_author.2.1 "ann" [("ann", [("email", "x")])] [("email", "x")]
     (by decide) (by decide),
   claim4_author.2.2.1 "bob" [("bob", [("name", "Bob B")])] [("name", "Bob B")]
     "Bob B" (by decide) (by decide),
   claim4_author.2.2.2 ["bob", "ghost", "bob"] [("bob", [("name", "Bob B")])]⟩

/-- Claim C8: the reference aggregation produces exactly the existing
tutorial bibliography content (empty when the file is absent) followed by
the two fixed entries, always overwriting the destination; repeating the
run is idempotent on the file-system state because the input bibliography,
not the output file, is read each run. -/
theorem claim8_refs :
    (∀ s : String, add_references (some s) = s ++ refFixedGalaxy ++ refFixedGTN) ∧
    (add_references none = "" ++ refFixedGalaxy ++ refFixedGTN) ∧
    (∀ st : RefState, runAddReferences (runAddReferences st) = runAddReferences st) := by
  refine ⟨fun s => rfl, rfl, fun st => rfl⟩

/-- Witness for claim C8: with a pre-existing tutorial.bib containing
"@misc{x}", each run writes that text followed by exactly the two fixed
entries, and a second run changes nothing. -/
theorem claim8_refs_wit :
    add_references (some "@misc\x7bx\x7d") =
      "@misc\x7bx\x7d" ++ refFixedGalaxy ++ refFixedGTN ∧
    runAddReferences (runAddReferences ⟨some "@misc\x7bx\x7d", none⟩) =
      runAddReferences ⟨some "@misc\x7bx\x7d", none⟩ :=
  ⟨claim8_refs.1 "@misc\x7bx\x7d", claim8_refs.2.2 ⟨some "@misc\x7bx\x7d", none⟩⟩

/-! ### Claims C1 and C6: the suppression machinery and hands-on rewrite -/

/-- While the flag is set, a line that does not clear it is dropped and
leaves the flag set. -/
theorem filterStep_suppress_stay (l : String) (h : clearsSuppress l = false) :
    filterStep true l = (true, []) := by
  unfold filterStep
  unfold clearsSuppress at h
  by_cases h1 : strContains l "\x7b% include" = true
  · simp [h1]
  · by_cases h2 : icon5 l = true
    · simp [h1, h2]
    · by_cases h3 : strContains l "### Agenda" = true
      · simp [h1, h2, h3]
      · have h4 : closing6 l = false := by
          simp only [Bool.eq_false_iff] at h1 h2 h3
          simp [h1, h2, h3] at h
          exact h
        simp [h1, h2, h3, h4]

/-- While the flag is set, a line that clears it is dropped and resets the
flag. -/
theorem filterStep_clear (l : String) (h : clearsSuppress l = true) :
    filterStep true l = (false, []) := by
  unfold clearsSuppress at h
  simp only [Bool.and_eq_true, Bool.not_eq_true'] at h
  obtain ⟨⟨⟨hc, hi⟩, h5⟩, ha⟩ := h
  unfold filterStep
  simp [hi, h5, ha, hc]

/-- A line at which the five-icon rule of line 115 fires is dropped and
sets the flag, whatever the incoming flag. -/
theorem filterStep_icon (flag : Bool) (l : String)
    (h1 : strContains l "\x7b% include" = false) (h2 : icon5 l = true) :
    filterStep flag l = (true, []) := by
  unfold filterStep
  simp [h1, h2]

/-- Scanning while suppressed: every line up to and including the first
line that clears the flag is dropped, and the scan continues unsuppressed
right after that line. -/
theorem filterLines_suppressed (rest : List String) :
    ∀ j : Nat, j < rest.length →
      (∀ x ∈ rest.take j, clearsSuppress x = false) →
      clearsSuppress (rest.getD j "") = true →
      filterLines true rest = filterLines false (rest.drop (j + 1)) := by
  induction rest with
  | nil => intro j hj; simp at hj
  | cons r0 rest ih =>
    intro j hj htake hclear
    cases j with
    | zero =>
      simp only [List.getD_cons_zero] at hclear
      simp only [filterLines, filterStep_clear r0 hclear, List.nil_append,
        List.drop_succ_cons, List.drop_zero]
    | succ j' =>
      have h0 : clearsSuppress r0 = false := by
        apply htake
        simp [List.take_succ_cons]
      have hrest : ∀ x ∈ rest.take j', clearsSuppress x = false := by
        intro x hx
        apply htake
        simp [List.take_succ_cons, hx]
      simp only [List.getD_cons_succ] at hclear
      simp only [List.length_cons, Nat.succ_lt_succ_iff] at hj
      simp only [filterLines, filterStep_suppress_stay r0 h0, List.nil_append,
        List.drop_succ_cons]
      exact ih j' hj hrest hclear

/-- Claim C1 counterexample: the first body line contains both an include
tag and a five-icon tag, so the include rule (line 112) wins and the flag
is never set; the following closing-annotation line — which the claim says
must be absent from the output — is emitted unchanged. -/
theorem claim1_cex :
    icon5 "\x7b% include \x7b% icon question %\x7d\n" = true ∧
    closing6 "\x7b:.question\x7d\n" = true ∧
    filterLines false
        ["\x7b% include \x7b% icon question %\x7d\n", "\x7b:.question\x7d\n"] =
      ["\x7b:.question\x7d\n"] := by
  refine ⟨by decide, by decide, by decide⟩

/-- Claim C1 (amended): for every body line at which the five-icon rule
actually fires (the line matches a five-icon tag and does not contain an
include tag), that line and all following lines are absent from the output
up to and including the first subsequent line at which the suppression
branch observes a closing annotation (a closing-marker line that does not
itself contain an include tag, a five-icon tag, or an Agenda heading); the
suppression flag is cleared exactly at that line, and processing continues
unsuppressed immediately after it. -/
theorem claim1_amended (l : String) (rest : List String) (flag : Bool) (j : Nat)
    (h1 : strContains l "\x7b% include" = false) (h2 : icon5 l = true)
    (h3 : j < rest.length)
    (h4 : ∀ x ∈ rest.take j, clearsSuppress x = false)
    (h5 : clearsSuppress (rest.getD j "") = true) :
    filterLines flag (l :: rest) = filterLines false (rest.drop (j + 1)) := by
  simp only [filterLines, filterStep_icon flag l h1 h2, List.nil_append]
  exact filterLines_suppressed rest j h3 h4 h5

/-- Witness for claim C1 (amended): a question box opened by an icon line
is removed in full, including an intermediate line and the closing
annotation, and the line after the box survives. -/
theorem claim1_amended_wit :
    filterLines false
        ["> ### \x7b% icon question %\x7d\n", "junk\n", "\x7b: .question\x7d\n",
         "after\n"] =
      filterLines false
        ((["junk\n", "\x7b: .question\x7d\n", "after\n"]).drop (1 + 1)) :=
  claim1_amended "> ### \x7b% icon question %\x7d\n"
    ["junk\n", "\x7b: .question\x7d\n", "after\n"] false 1
    (by decide) (by decide) (by decide) (by decide) (by decide)

/-- Claim C6: a body line containing the hands-on icon tag, at which the
hands-on rule of line 126 fires (no include tag, no five-icon tag, no
Agenda heading, suppression off), is rewritten by replacing the
block-opening marker sequence with the bold-emphasis opener and replacing
the trailing character with the bold-emphasis closer plus newline; in
particular the body line of the end-to-end scenario produces exactly
"***Step 1***" with trailing newline. -/
theorem claim6_hands_on :
    (∀ l : String,
      strContains l "\x7b% icon hands_on %\x7d" = true →
      strContains l "\x7b% include" = false →
      icon5 l = false →
      strContains l "### Agenda" = false →
      filterStep false l =
        (false,
         [strDropLast (strReplace l "> ### \x7b% icon hands_on %\x7d " "***") ++
           "***\n"])) ∧
    filterLines false ["> ### \x7b% icon hands_on %\x7d Step 1\n"] =
      ["***Step 1***\n"] := by
  constructor
  · intro l h1 h2 h3 h4
    unfold filterStep
    simp [h1, h2, h3, h4]
  · decide

/-- Witness for claim C6: the general rewrite applied to the concrete
scenario line. -/
theorem claim6_hands_on_wit :
    filterStep false "> ### \x7b% icon hands_on %\x7d Step 1\n" =
      (false,
       [strDropLast
          (strReplace "> ### \x7b% icon hands_on %\x7d Step 1\n"
            "> ### \x7b% icon hands_on %\x7d " "***") ++ "***\n"]) :=
  claim6_hands_on.1 "> ### \x7b% icon hands_on %\x7d Step 1\n"
    (by decide) (by decide) (by decide) (by decide)

/-! ### Claim C7: the synthesized abstract -/

set_option maxRecDepth 40000
set_option maxHeartbeats 1000000

/-- Claim C7: for front-matter questions ["How does X work?"] and
objectives ["Explain X."], the synthesized abstract interpolates the
question count and the space-joined questions, and the comma-joined
objectives with first character lowercased, containing the literal
substrings "we focus on 1 questions: How does X work?" and
"you will be able to explain X.." (the double period coming from the
objective period followed by the template period, with no space). -/
theorem claim7_abstract :
    (create_abstract ymScenario).isSome = true ∧
    strContains ((create_abstract ymScenario).getD "")
      "we focus on 1 questions: How does X work?" = true ∧
    strContains ((create_abstract ymScenario).getD "")
      "you will be able to explain X.." = true := by
  refine ⟨by decide, by decide, by decide⟩

/-! ### Claim C10: the front-matter slicing off-by-one -/

/-- Specification of `findIdx` at a position known to be the first hit. -/
theorem findIdx_spec {α : Type} [Inhabited α] (p : α → Bool) :
    ∀ (l : List α) (i : Nat), i < l.length →
      (∀ j, j < i → p (l.getD j default) = false) →
      p (l.getD i default) = true →
      l.findIdx p = i := by
  intro l
  induction l with
  | nil => intro i hi; simp at hi
  | cons a t ih =>
    intro i hi hbefore hhit
    cases i with
    | zero =>
      simp only [List.getD_cons_zero] at hhit
      simp [List.findIdx_cons, hhit]
    | succ i' =>
      have h0 : p a = false := by
        have := hbefore 0 (Nat.succ_pos i')
        simpa using this
      simp only [List.getD_cons_succ] at hhit
      simp only [List.length_cons, Nat.succ_lt_succ_iff] at hi
      have hb : ∀ j, j < i' → p (t.getD j default) = false := by
        intro j hj
        have := hbefore (j + 1) (Nat.succ_lt_succ hj)
        simpa using this
      simp [List.findIdx_cons, h0, ih i' hi hb hhit]

/-- Reading `getD` through a one-element drop. -/
theorem getD_drop_one {α : Type} (l : List α) (m : Nat) (d : α) :
    (l.drop 1).getD m d = l.getD (m + 1) d := by
  cases l with
  | nil => simp
  | cons a t => simp [List.getD_cons_succ]

/-- Claim C10: when the closing front-matter delimiter is 1-based line k
(the first line after line 1 starting with three hyphens), the metadata
slice handed to the YAML parse is 1-based lines 2 through k-2 — the last
front-matter line, line k-1, is always excluded — while the body slice
starts at line k+1, the line right after the delimiter. -/
theorem claim10_slice (lines : List String) (k : Nat)
    (h2 : 2 ≤ k) (hk : k ≤ lines.length)
    (hdelim : pyStartsWith (lines.getD (k - 1) "") "---" = true)
    (hfirst : ∀ j, j < k - 1 → 1 ≤ j →
      pyStartsWith (lines.getD j "") "---" = false) :
    yamlSliceOf lines = (lines.drop 1).take (k - 3) ∧
    bodySliceOf lines = lines.drop k := by
  have hidx : closeDelimIdx lines = k - 2 := by
    unfold closeDelimIdx
    apply findIdx_spec
    · simp only [List.length_drop]
      omega
    · intro j hj
      rw [getD_drop_one]
      exact hfirst (j + 1) (by omega) (by omega)
    · rw [getD_drop_one]
      have : k - 2 + 1 = k - 1 := by omega
      rw [this]
      exact hdelim
  constructor
  · unfold yamlSliceOf
    rw [hidx]
    have h3 : k - 2 - 1 = k - 3 := by omega
    rw [h3]
  · unfold bodySliceOf
    rw [hidx]
    have h4 : k - 2 + 2 = k := by omega
    rw [h4]

/-- Witness for claim C10: a document whose front-matter has two metadata
lines; only the first is parsed (1-based line 2 through k-2 with k = 4),
the second (line k-1 = 3) is dropped, and the body starts after the
closing delimiter. -/
theorem claim10_slice_wit :
    yamlSliceOf ["---\n", "title: x\n", "contributors:\n", "---\n", "body\n"] =
      ((["---\n", "title: x\n", "contributors:\n", "---\n", "body\n"]).drop 1).take (4 - 3) ∧
    bodySliceOf ["---\n", "title: x\n", "contributors:\n", "---\n", "body\n"] =
      (["---\n", "title: x\n", "contributors:\n", "---\n", "body\n"]).drop 4 :=
  claim10_slice ["---\n", "title: x\n", "contributors:\n", "---\n", "body\n"] 4
    (by decide) (by decide) (by decide) (by decide)

/-! ### Claim C2: the serialized key order of the front-matter -/

/-- Claim C2 counterexample: at a concrete input the serialized
front-matter mapping has its keys in alphabetical order — abstract,
author, bibliography, title — which is not the claimed order title,
author, abstract, bibliography, because the external dumper sorts keys. -/
theorem claim2_cex :
    dumpedKeyOrder ((extract_metadata ymScenario contributorsScenario).getD []) =
      ["abstract", "author", "bibliography", "title"] ∧
    (["abstract", "author", "bibliography", "title"] ≠
      ["title", "author", "abstract", "bibliography"]) := by
  refine ⟨by decide, by decide⟩

/-- Claim C2 (amended): the formatted document is the front-matter
delimiter, the re-serialized metadata mapping, a delimiter, then the
transformed body — but the mapping keys appear in alphabetical order
abstract, author, bibliography, title (the dict is built in insertion
order title, author, abstract, bibliography at lines 84-89, and the
external dumper sorts the keys on serialization). -/
theorem claim2_amended (ym : TutoMeta) (contributors : Contributors)
    (body : List String) (tuto_fp : String) (m : List (String × YamlValue))
    (h : extract_metadata ym contributors = some m) :
    format_tutorial ym contributors body tuto_fp =
      some ("---\n" ++ dumpYaml m ++ "---\n" ++
        format_tuto_content body ym.zenodo_link tuto_fp) ∧
    dumpedKeyOrder m = ["abstract", "author", "bibliography", "title"] := by
  constructor
  · unfold format_tutorial
    rw [h]
  · unfold extract_metadata at h
    cases hca : create_abstract ym with
    | none => rw [hca] at h; exact absurd h (by simp)
    | some a =>
      rw [hca] at h
      simp only [Option.some.injEq] at h
      subst h
      rfl

/-- Witness for claim C2 (amended): the concrete scenario document. -/
theorem claim2_amended_wit :
    format_tutorial ymScenario contributorsScenario [] "t.md" =
      some ("---\n" ++
        dumpYaml ((extract_metadata ymScenario contributorsScenario).getD []) ++
        "---\n" ++ format_tuto_content [] ymScenario.zenodo_link "t.md") ∧
    dumpedKeyOrder ((extract_metadata ymScenario contributorsScenario).getD []) =
      ["abstract", "author", "bibliography", "title"] :=
  claim2_amended ymScenario contributorsScenario [] "t.md"
    ((extract_metadata ymScenario contributorsScenario).getD []) rfl

/-! ### Claim C5: machinery about the citation substitution -/

/-- Taking while a predicate holds never lengthens the list. -/
theorem takeWhile_length_le (p : Char → Bool) :
    ∀ l : List Char, (l.takeWhile p).length ≤ l.length := by
  intro l
  induction l with
  | nil => simp
  | cons a t ih =>
    rw [List.takeWhile_cons]
    by_cases h : p a = true
    · simp only [h, if_true, List.length_cons]
      omega
    · simp only [h, if_false]
      simp

/-- A successful Boolean prefix test yields the append decomposition. -/
theorem isPrefixOf_exists {l₁ l₂ : List Char} (h : l₁.isPrefixOf l₂ = true) :
    ∃ t, l₁ ++ t = l₂ :=
  List.isPrefixOf_iff_prefix.mp h

/-- The Boolean prefix test succeeds on an appended extension. -/
theorem isPrefixOf_append_self (l₁ l₂ : List Char) :
    l₁.isPrefixOf (l₁ ++ l₂) = true :=
  List.isPrefixOf_iff_prefix.mpr (List.prefix_append _ _)

/-- The function `eatSpace` never lengthens its input. -/
theorem eatSpace_length_le (eat : Bool) (l : List Char) :
    (eatSpace eat l).length ≤ l.length := by
  unfold eatSpace
  cases eat with
  | false => simp
  | true =>
    cases l with
    | nil => simp
    | cons c t =>
      by_cases hc : (c == spaceC) = true
      · simp [hc]
      · simp [hc]

/-- A successful tag match strictly shrinks the string. -/
theorem matchTagAt_some_length {pre post : List Char} {kc : Char → Bool}
    {eat : Bool} {s : List Char} {p : List Char × List Char}
    (h : matchTagAt pre post kc eat s = some p) : p.2.length + 1 ≤ s.length := by
  unfold matchTagAt at h
  split at h
  · split at h
    · exact absurd h (by simp)
    · split at h
      · rename_i hke hpost
        simp only [Option.some.injEq] at h
        have h2 : p.2 =
            eatSpace eat
              (((s.drop pre.length).drop
                  ((s.drop pre.length).takeWhile kc).length).drop post.length) := by
          rw [← h]
        have hlen1 : p.2.length ≤
            (((s.drop pre.length).drop
                ((s.drop pre.length).takeWhile kc).length).drop post.length).length := by
          rw [h2]; exact eatSpace_length_le _ _
        have hkpos : 0 < ((s.drop pre.length).takeWhile kc).length := by
          cases hcw : (s.drop pre.length).takeWhile kc with
          | nil => rw [hcw] at hke; exact absurd rfl hke
          | cons a b => simp [hcw]
        have hkle : ((s.drop pre.length).takeWhile kc).length ≤
            (s.drop pre.length).length := takeWhile_length_le kc _
        simp only [List.length_drop] at hlen1 hkle ⊢
        omega
      · exact absurd h (by simp)
  · exact absurd h (by simp)

/-- Structural unfolding of `subTagGo` with positive fuel. -/
theorem subTagGo_succ (pre post : List Char) (kc : Char → Bool) (eat : Bool)
    (mk : List Char → List Char) (fuel : Nat) (c : Char) (rest : List Char) :
    subTagGo pre post kc eat mk (fuel + 1) (c :: rest) =
      match matchTagAt pre post kc eat (c :: rest) with
      | some p => mk p.1 ++ subTagGo pre post kc eat mk fuel p.2
      | none => c :: subTagGo pre post kc eat mk fuel rest := rfl

/-- The fuel of `subTagGo` is irrelevant as long as it covers the length
of the scanned list. -/
theorem subTagGo_congr (pre post : List Char) (kc : Char → Bool) (eat : Bool)
    (mk : List Char → List Char) :
    ∀ (f₁ f₂ : Nat) (s : List Char), s.length ≤ f₁ → s.length ≤ f₂ →
      subTagGo pre post kc eat mk f₁ s = subTagGo pre post kc eat mk f₂ s := by
  intro f₁
  induction f₁ with
  | zero =>
    intro f₂ s hs₁ _
    have : s = [] := List.length_eq_zero.mp (Nat.le_zero.mp hs₁)
    subst this
    cases f₂ <;> rfl
  | succ f ih =>
    intro f₂ s hs₁ hs₂
    cases s with
    | nil => cases f₂ <;> rfl
    | cons c rest =>
      cases f₂ with
      | zero => simp at hs₂
      | succ f₂' =>
        rw [subTagGo_succ, subTagGo_succ]
        cases hm : matchTagAt pre post kc eat (c :: rest) with
        | some p =>
          simp only [hm]
          have hp := matchTagAt_some_length hm
          simp only [List.length_cons] at hp hs₁ hs₂
          rw [ih f₂' p.2 (by omega) (by omega)]
        | none =>
          simp only [hm]
          simp only [List.length_cons] at hs₁ hs₂
          rw [ih f₂' rest (by omega) (by omega)]

/-- Unfolding of `subTagCL` on a matching head. -/
theorem subTagCL_cons_some {pre post : List Char} {kc : Char → Bool}
    {eat : Bool} {mk : List Char → List Char} {c : Char} {rest : List Char}
    {p : List Char × List Char}
    (h : matchTagAt pre post kc eat (c :: rest) = some p) :
    subTagCL pre post kc eat mk (c :: rest) =
      mk p.1 ++ subTagCL pre post kc eat mk p.2 := by
  unfold subTagCL
  simp only [List.length_cons]
  rw [subTagGo_succ]
  simp only [h]
  have hp := matchTagAt_some_length h
  simp only [List.length_cons] at hp
  rw [subTagGo_congr pre post kc eat mk rest.length p.2.length p.2 (by omega) le_rfl]

/-- Unfolding of `subTagCL` on a non-matching head. -/
theorem subTagCL_cons_none {pre post : List Char} {kc : Char → Bool}
    {eat : Bool} {mk : List Char → List Char} {c : Char} {rest : List Char}
    (h : matchTagAt pre post kc eat (c :: rest) = none) :
    subTagCL pre post kc eat mk (c :: rest) =
      c :: subTagCL pre post kc eat mk rest := by
  unfold subTagCL
  simp only [List.length_cons]
  rw [subTagGo_succ]
  simp only [h]

/-- A successful match (without space eating) decomposes the string as
literal prefix, nonempty key of class characters, literal suffix, rest. -/
theorem matchTagAt_decomp {pre post : List Char} {kc : Char → Bool}
    {s : List Char} {p : List Char × List Char}
    (h : matchTagAt pre post kc false s = some p) :
    s = pre ++ (p.1 ++ (post ++ p.2)) ∧ p.1 ≠ [] ∧ ∀ x ∈ p.1, kc x = true := by
  unfold matchTagAt at h
  split at h
  · rename_i hpre
    split at h
    · exact absurd h (by simp)
    · rename_i hke
      split at h
      · rename_i hpost
        simp only [Option.some.injEq] at h
        obtain ⟨r1, hr1⟩ : ∃ r1, pre ++ r1 = s := isPrefixOf_exists hpre
        have hdrop : s.drop pre.length = r1 := by
          rw [← hr1]; exact List.drop_left _ _
        rw [hdrop] at h hpost
        set tw := r1.takeWhile kc with htw
        have hsplit : r1 = tw ++ r1.dropWhile kc := by
          rw [htw]; exact (List.takeWhile_append_dropWhile kc r1).symm
        have hdrop2 : r1.drop tw.length = r1.dropWhile kc := by
          conv_lhs => rw [hsplit]
          exact List.drop_left _ _
        rw [hdrop2] at h hpost
        obtain ⟨w, hw⟩ : ∃ w, post ++ w = r1.dropWhile kc :=
          isPrefixOf_exists hpost
        have hdrop3 : (r1.dropWhile kc).drop post.length = w := by
          rw [← hw]; exact List.drop_left _ _
        rw [hdrop3] at h
        have hp1 : p.1 = tw := by rw [← h]
        have hp2 : p.2 = w := by rw [← h]; rfl
        refine ⟨?_, ?_, ?_⟩
        · rw [← hr1, hp1, hp2]
          rw [hsplit, ← hw]
        · rw [hp1]
          intro hnil
          rw [hdrop] at hke
          rw [← htw] at hke
          rw [hnil] at hke
          exact hke rfl
        · intro x hx
          rw [hp1, htw] at hx
          exact List.mem_takeWhile_imp hx
      · exact absurd h (by simp)
  · exact absurd h (by simp)

/-- Characters of the citation-key class are neither an opening bracket
nor an opening brace. -/
theorem keyCharCite_ne {x : Char} (hx : keyCharCite x = true) :
    x ≠ lbrackC ∧ x ≠ braceL := by
  constructor
  · intro h; subst h; exact absurd hx (by decide)
  · intro h; subst h; exact absurd hx (by decide)

/-- The citation pattern cannot match at a head character that is not an
opening brace. -/
theorem cite_none_of_head {c : Char} (hc : c ≠ braceL) (r : List Char) :
    matchTagAt citePre tagPost keyCharCite false (c :: r) = none := by
  have hpre : citePre.isPrefixOf (c :: r) = false := by
    cases hbc : braceL == c with
    | true => exact absurd (eq_of_beq hbc).symm hc
    | false =>
      show (braceL :: percentC :: spaceC :: 'c' :: 'i' :: 't' :: 'e' ::
        spaceC :: []).isPrefixOf (c :: r) = false
      simp [List.isPrefixOf, hbc]
  unfold matchTagAt
  simp [hpre]

/-- Specialization of `subTagCL_cons_some` to the citation substitution. -/
theorem citeSubCL_cons_some {c : Char} {rest : List Char}
    {p : List Char × List Char}
    (h : matchTagAt citePre tagPost keyCharCite false (c :: rest) = some p) :
    citeSubCL (c :: rest) = citeRep p.1 ++ citeSubCL p.2 :=
  subTagCL_cons_some h

/-- Specialization of `subTagCL_cons_none` to the citation substitution. -/
theorem citeSubCL_cons_none {c : Char} {rest : List Char}
    (h : matchTagAt citePre tagPost keyCharCite false (c :: rest) = none) :
    citeSubCL (c :: rest) = c :: citeSubCL rest :=
  subTagCL_cons_none h

/-- The citation substitution passes over any brace-free prefix
unchanged. -/
theorem citeSub_braceFree_append (a : List Char) (t : List Char)
    (ha : ∀ x ∈ a, x ≠ braceL) :
    citeSubCL (a ++ t) = a ++ citeSubCL t := by
  induction a with
  | nil => simp
  | cons c a' ih =>
    have hc : c ≠ braceL := ha c (List.mem_cons_self c a')
    have hnone := cite_none_of_head hc (a' ++ t)
    simp only [List.cons_append]
    rw [citeSubCL_cons_none hnone]
    rw [ih (fun x hx => ha x (List.mem_cons_of_mem c hx))]

/-- Applying `takeWhile` to a block of class characters followed by a
non-class character stops exactly at the block. -/
theorem takeWhile_append_of_all {p : Char → Bool} :
    ∀ (k : List Char) (y : Char) (r : List Char),
      (∀ x ∈ k, p x = true) → p y = false →
      (k ++ y :: r).takeWhile p = k := by
  intro k
  induction k with
  | nil =>
    intro y r _ hy
    simp [List.takeWhile_cons, hy]
  | cons c k' ih =>
    intro y r hall hy
    have hc : p c = true := hall c (List.mem_cons_self c k')
    simp only [List.cons_append, List.takeWhile_cons, hc, if_true]
    rw [ih y r (fun x hx => hall x (List.mem_cons_of_mem c hx)) hy]

/-- The citation pattern matches a well-formed citation token at the
head, capturing the key verbatim. -/
theorem cite_token_match (k t : List Char) (hk : k ≠ [])
    (hall : ∀ x ∈ k, keyCharCite x = true) :
    matchTagAt citePre tagPost keyCharCite false
      (citePre ++ (k ++ (tagPost ++ t))) = some (k, t) := by
  have hpre : citePre.isPrefixOf (citePre ++ (k ++ (tagPost ++ t))) = true :=
    isPrefixOf_append_self _ _
  have hdrop : (citePre ++ (k ++ (tagPost ++ t))).drop citePre.length =
      k ++ (tagPost ++ t) := List.drop_left _ _
  have hsp : keyCharCite spaceC = false := by decide
  have hpt : tagPost ++ t = spaceC :: (percentC :: braceR :: t) := rfl
  have htw : (k ++ (tagPost ++ t)).takeWhile keyCharCite = k := by
    rw [hpt]
    exact takeWhile_append_of_all k spaceC (percentC :: braceR :: t) hall hsp
  have hke : ((k ++ (tagPost ++ t)).takeWhile keyCharCite).isEmpty = false := by
    rw [htw]
    cases k with
    | nil => exact absurd rfl hk
    | cons a b => rfl
  have hdropk : (k ++ (tagPost ++ t)).drop k.length = tagPost ++ t :=
    List.drop_left _ _
  have hpost : tagPost.isPrefixOf (tagPost ++ t) = true :=
    isPrefixOf_append_self _ _
  have hdropp : (tagPost ++ t).drop tagPost.length = t := List.drop_left _ _
  unfold matchTagAt
  rw [hdrop, htw, hdropk]
  simp [hpre, hke, hpost, hdropp, eatSpace, hk]

/-- The citation substitution rewrites a citation token at the head into
the bracketed key and continues after it. -/
theorem citeSub_token (k t : List Char) (hk : k ≠ [])
    (hall : ∀ x ∈ k, keyCharCite x = true) :
    citeSubCL (citePre ++ (k ++ (tagPost ++ t))) = citeRep k ++ citeSubCL t :=
  citeSubCL_cons_some (cite_token_match k t hk hall)

/-- A bracket-free prefix of the output of the citation substitution is
also a prefix of its input: replaced regions always start with an opening
bracket, so such a prefix lies inside the part copied verbatim. -/
theorem citeSub_prefix_stable :
    ∀ (n : Nat) (u d e : List Char), u.length ≤ n → citeSubCL u = d ++ e →
      (∀ x ∈ d, x ≠ lbrackC) → ∃ f, u = d ++ f := by
  intro n
  induction n with
  | zero =>
    intro u d e hu hcs hd
    have hu0 : u = [] := List.length_eq_zero.mp (Nat.le_zero.mp hu)
    subst hu0
    have h0 : ([] : List Char) = d ++ e := hcs
    have hd0 : d = [] := (List.append_eq_nil.mp h0.symm).1
    subst hd0
    exact ⟨[], rfl⟩
  | succ n ih =>
    intro u d e hu hcs hd
    cases u with
    | nil =>
      have h0 : ([] : List Char) = d ++ e := hcs
      have hd0 : d = [] := (List.append_eq_nil.mp h0.symm).1
      subst hd0
      exact ⟨[], rfl⟩
    | cons c rest =>
      cases hm : matchTagAt citePre tagPost keyCharCite false (c :: rest) with
      | some p =>
        rw [citeSubCL_cons_some hm] at hcs
        cases d with
        | nil => exact ⟨c :: rest, rfl⟩
        | cons x d' =>
          exfalso
          have hcs' :
              lbrackC :: (atC :: ((p.1 ++ [rbrackC]) ++ citeSubCL p.2)) =
                x :: (d' ++ e) := hcs
          injection hcs' with h1 _
          exact (hd x (List.mem_cons_self x d')) h1.symm
      | none =>
        rw [citeSubCL_cons_none hm] at hcs
        cases d with
        | nil => exact ⟨c :: rest, rfl⟩
        | cons x d' =>
          have hcs' : c :: citeSubCL rest = x :: (d' ++ e) := hcs
          injection hcs' with h1 h2
          simp only [List.length_cons] at hu
          obtain ⟨f, hf⟩ := ih rest d' e (by omega) h2
            (fun y hy => hd y (List.mem_cons_of_mem x hy))
          refine ⟨f, ?_⟩
          rw [h1, hf]
          rfl

/-- If the citation pattern does not match at the head of the input, it
does not match at the head after the tail has been substituted: a match
there would force a bracket-free citation token to be a prefix of the
substituted tail, hence of the original tail, contradicting the failed
match. -/
theorem cite_none_stable {c : Char} {r : List Char}
    (hnone : matchTagAt citePre tagPost keyCharCite false (c :: r) = none) :
    matchTagAt citePre tagPost keyCharCite false (c :: citeSubCL r) = none := by
  cases hm : matchTagAt citePre tagPost keyCharCite false (c :: citeSubCL r) with
  | none => rfl
  | some p =>
    exfalso
    obtain ⟨hs, hk, hall⟩ := matchTagAt_decomp hm
    have hs' : c :: citeSubCL r =
        braceL :: ((percentC :: spaceC :: 'c' :: 'i' :: 't' :: 'e' ::
          spaceC :: []) ++ (p.1 ++ (tagPost ++ p.2))) := hs
    injection hs' with hc hrest
    have hre : citeSubCL r =
        ((percentC :: spaceC :: 'c' :: 'i' :: 't' :: 'e' :: spaceC :: []) ++
          p.1 ++ tagPost) ++ p.2 := by
      rw [hrest]
      simp [List.append_assoc]
    have hd : ∀ x ∈ (percentC :: spaceC :: 'c' :: 'i' :: 't' :: 'e' ::
        spaceC :: []) ++ p.1 ++ tagPost, x ≠ lbrackC := by
      intro x hx
      simp only [List.append_assoc, List.mem_append, List.mem_cons,
        List.not_mem_nil, or_false] at hx
      rcases hx with (h | h | h | h | h | h | h) | h | h
      · subst h; decide
      · subst h; decide
      · subst h; decide
      · subst h; decide
      · subst h; decide
      · subst h; decide
      · subst h; decide
      · exact (keyCharCite_ne (hall x h)).1
      · simp only [tagPost, List.mem_cons, List.not_mem_nil, or_false] at h
        rcases h with h | h | h
        · subst h; decide
        · subst h; decide
        · subst h; decide
    obtain ⟨f, hf⟩ := citeSub_prefix_stable r.length r _ p.2 le_rfl hre hd
    have heq : c :: r = citePre ++ (p.1 ++ (tagPost ++ f)) := by
      rw [hc, hf]
      simp [citePre, List.append_assoc]
    have hsome : matchTagAt citePre tagPost keyCharCite false (c :: r) =
        some (p.1, f) := by
      rw [heq]
      exact cite_token_match p.1 f hk hall
    rw [hnone] at hsome
    exact Option.noConfusion hsome

/-- Idempotence of the citation substitution, by strong induction on the
length of the input. -/
theorem citeSub_idem_aux :
    ∀ (n : Nat) (s : List Char), s.length ≤ n →
      citeSubCL (citeSubCL s) = citeSubCL s := by
  intro n
  induction n with
  | zero =>
    intro s hs
    have : s = [] := List.length_eq_zero.mp (Nat.le_zero.mp hs)
    subst this
    rfl
  | succ n ih =>
    intro s hs
    cases s with
    | nil => rfl
    | cons c rest =>
      cases hm : matchTagAt citePre tagPost keyCharCite false (c :: rest) with
      | some p =>
        obtain ⟨hsdec, hk, hall⟩ := matchTagAt_decomp hm
        rw [citeSubCL_cons_some hm]
        have hbr : ∀ x ∈ citeRep p.1, x ≠ braceL := by
          intro x hx
          simp only [citeRep, List.mem_cons, List.mem_append,
            List.not_mem_nil, or_false] at hx
          rcases hx with h | h | h | h
          · subst h; decide
          · subst h; decide
          · exact (keyCharCite_ne (hall x h)).2
          · subst h; decide
        rw [citeSub_braceFree_append _ _ hbr]
        have hlen := matchTagAt_some_length hm
        simp only [List.length_cons] at hlen hs
        rw [ih p.2 (by omega)]
      | none =>
        rw [citeSubCL_cons_none hm]
        rw [citeSubCL_cons_none (cite_none_stable hm)]
        simp only [List.length_cons] at hs
        rw [ih rest (by omega)]

/-- Claim C5: the citation substitution rewrites every citation token
(literal prefix, then a nonempty key of lowercase alphanumerics, hyphens
and underscores, then the literal suffix) into the bracketed key with the
key captured verbatim, and it is idempotent: applying it a second time to
its own output produces no further change. -/
theorem claim5_cite :
    (∀ (k t : List Char), k ≠ [] → (∀ x ∈ k, keyCharCite x = true) →
      citeSubCL (citePre ++ (k ++ (tagPost ++ t))) =
        citeRep k ++ citeSubCL t) ∧
    (∀ s : List Char, citeSubCL (citeSubCL s) = citeSubCL s) :=
  ⟨fun k t hk hall => citeSub_token k t hk hall,
   fun s => citeSub_idem_aux s.length s le_rfl⟩

/-- Witness for claim C5: the token with key "abc" is rewritten with the
key verbatim, and a second application over a concrete mixed string is
the identity. -/
theorem claim5_cite_wit :
    citeSubCL (citePre ++ ("abc".data ++ (tagPost ++ " tail".data))) =
      citeRep "abc".data ++ citeSubCL " tail".data ∧
    citeSubCL (citeSubCL ("x \x7b% cite ab %\x7d y".data)) =
      citeSubCL ("x \x7b% cite ab %\x7d y".data) :=
  ⟨claim5_cite.1 "abc".data " tail".data (by decide) (by decide),
   claim5_cite.2 ("x \x7b% cite ab %\x7d y".data)⟩

/-! ### Claim C9: the interpolated path and content assembly -/

/-- When the substring "md" does not occur in the stem, replacing every
"md" in `stem ++ ".md"` rewrites exactly the extension. -/
theorem replace_md_stem (a : List Char)
    (h : isSubstrCL ('m' :: 'd' :: []) a = false) :
    replaceAllCL ('m' :: 'd' :: []) "html".data (a ++ ('.' :: 'm' :: 'd' :: [])) =
      a ++ ('.' :: "html".data) := by
  induction a with
  | nil => decide
  | cons c a' ih =>
    have hsplit : ('m' :: 'd' :: []).isPrefixOf (c :: a') = false ∧
        isSubstrCL ('m' :: 'd' :: []) a' = false := by
      unfold isSubstrCL at h
      exact Bool.or_eq_false_iff.mp h
    have hnp : ('m' :: 'd' :: []).isPrefixOf
        (c :: (a' ++ ('.' :: 'm' :: 'd' :: []))) = false := by
      cases a' with
      | nil =>
        cases hmc : ('m' == c) with
        | false => simp [List.isPrefixOf, hmc]
        | true => simp [List.isPrefixOf, hmc]
      | cons b a'' =>
        have h1 := hsplit.1
        simp only [List.isPrefixOf, List.cons_append] at h1 ⊢
        exact h1
    simp only [List.cons_append]
    rw [replaceAllCL_cons]
    rw [if_neg (fun hcontra => by rw [hnp] at hcontra; exact Bool.noConfusion hcontra.2)]
    rw [ih hsplit.2]

/-- Claim C9 counterexample: for the input path "md/tutorial.md" the
interpolated relative path is "html/tutorial.html" — every occurrence of
"md" is replaced, not only the extension — so the claimed
extension-rewritten path "md/tutorial.html" does not occur in the
output. -/
theorem claim9_cex :
    strContains (format_tuto_content [] "" "md/tutorial.md")
      "html/tutorial.html" = true ∧
    strContains (format_tuto_content [] "" "md/tutorial.md")
      "md/tutorial.html" = false := by
  refine ⟨by decide, by decide⟩

/-- Claim C9 (amended): the interpolated relative path equals the input
path with every occurrence of the substring "md" replaced by "html" —
which coincides with rewriting the extension exactly when "md" occurs
nowhere else in the path — and the assembled content is the fixed
introduction block with that path, then the filtered body, then the fixed
References heading, before the three global substitutions. -/
theorem claim9_amended :
    (∀ stem : String, strContains stem "md" = false →
      strReplace (stem ++ ".md") "md" "html" = stem ++ ".html") ∧
    (∀ (content : List String) (zen fp : String),
      format_tuto_content content zen fp =
        citeSubStr (iconSubStr (strReplace
          (introText ++ strReplace fp "md" "html" ++ ".\n\n" ++
            String.join (filterLines false content) ++ refHeading)
          zenodoTag zen))) := by
  constructor
  · intro stem h
    show String.mk
        (replaceAllCL "md".data "html".data (stem ++ ".md").data) =
      stem ++ ".html"
    have hd : (stem ++ ".md").data = stem.data ++ ('.' :: 'm' :: 'd' :: []) := rfl
    have h2 : stem ++ ".html" = String.mk (stem.data ++ ('.' :: "html".data)) := rfl
    rw [hd, h2]
    exact congrArg String.mk (replace_md_stem stem.data h)
  · intro content zen fp
    rfl

/-- Witness for claim C9 (amended): a stem without any "md" substring
gets exactly its extension rewritten. -/
theorem claim9_amended_wit :
    strReplace ("tutorial" ++ ".md") "md" "html" = "tutorial" ++ ".html" :=
  claim9_amended.1 "tutorial" (by decide)
